import Mathlib

/-!
Verification of the `jute` terminal key-value editor's state machine.

The event loop (`run_app` in `src/main.rs`) reads key events and updates
the application state: a screen (Main / Editing / Exiting), an optional
editing focus (Key / Value), two input buffers and a store of committed
key-value pairs.  We embed the state, the event handling of one loop
iteration, and the store operations, and prove the specified transition
and invariant properties.
-/

namespace Jute

/-- `CurrentScreen` from the application state (`app.rs`, re-exported and
matched on in `main.rs` and `ui.rs`). -/
inductive CurrentScreen
  | Main
  | Editing
  | Exiting
deriving DecidableEq

/-- `CurrentlyEditing` from the application state: which input buffer has
focus while editing. -/
inductive CurrentlyEditing
  | Key
  | Value
deriving DecidableEq

/-- The kinds of a crossterm key event: `Press`, `Repeat` or `Release`. -/
inductive KeyEventKind
  | Press
  | Repeat
  | Release
deriving DecidableEq

/-- The key codes the loop in `main.rs` distinguishes: a character key,
`Enter`, `Backspace`, `Esc`, `Tab`, and anything else (`Other`). -/
inductive KeyCode
  | Char (c : Char)
  | Enter
  | Backspace
  | Esc
  | Tab
  | Other
deriving DecidableEq

/-- A key event: a code plus a kind. -/
structure KeyEvent where
  code : KeyCode
  kind : KeyEventKind
deriving DecidableEq

/-- The application state `App`: the two input buffers, the committed
pairs (an insertion-ordered map with unique keys), the current screen and
the optional editing focus. -/
structure App where
  key_input : String
  value_input : String
  pairs : List (String × String)
  current_screen : CurrentScreen
  currently_editing : Option CurrentlyEditing
deriving DecidableEq

/-- Modelled from the spec: `App::init` lives in the `app` module, which is
declared in `main.rs` but absent from the sources.  The spec fixes the
initial state: Screen = Main, Editing Focus = None, empty Pair Store and
buffers. -/
def App.init : App :=
  { key_input := ""
    value_input := ""
    pairs := []
    current_screen := CurrentScreen.Main
    currently_editing := none }

/-- Insertion into the Pair Store.  Modelled from the spec: the store is an
"ordered-by-insertion mapping from string key to string value; keys unique
(last write wins)", so inserting an existing key overwrites its value in
place and inserting a new key appends it. -/
def insertPair : List (String × String) → String → String → List (String × String)
  | [], k, v => [(k, v)]
  | (k0, v0) :: rest, k, v =>
    if k0 = k then (k, v) :: rest
    else (k0, v0) :: insertPair rest k v

/-- Modelled from the spec: `App::save_key_value` (`commit()` in the spec)
lives in the missing `app` module.  Per §4.1 it "inserts (or overwrites)
Pair Store[key_buffer] = value_buffer, then clears both buffers, sets
Editing Focus = None, Screen = Main". -/
def App.save_key_value (app : App) : App :=
  { app with
    pairs := insertPair app.pairs app.key_input app.value_input
    key_input := ""
    value_input := ""
    currently_editing := none
    current_screen := CurrentScreen.Main }

/-- Modelled from the spec: `App::toggle_editing` (`toggle_focus()` in the
spec) lives in the missing `app` module.  Per §4.1 it "switches Editing
Focus between EditingKey and EditingValue ...; no effect if None". -/
def App.toggle_editing (app : App) : App :=
  match app.currently_editing with
  | some CurrentlyEditing.Key => { app with currently_editing := some CurrentlyEditing.Value }
  | some CurrentlyEditing.Value => { app with currently_editing := some CurrentlyEditing.Key }
  | none => app

/-- Rust's `String::pop` used on the input buffers: removes the last
character, a no-op on the empty string. -/
def strPop (s : String) : String :=
  String.mk s.data.dropLast

/-- The outcome of one iteration of the event loop: keep looping with a new
state, or return from `run_app` with `Ok(true)` (exit and print the JSON)
or `Ok(false)` (exit silently). -/
inductive StepResult
  | Continue (a : App)
  | ExitWithOutput
  | ExitWithoutOutput
deriving DecidableEq

/-- The `CurrentScreen::Editing` match arm of `run_app` (`main.rs` lines
95-152), handling one key code while editing. -/
def editingKeyStep (app : App) (code : KeyCode) : App :=
  match code with
  | KeyCode.Enter =>
    match app.currently_editing with
    | some CurrentlyEditing.Key => { app with currently_editing := some CurrentlyEditing.Value }
    | some CurrentlyEditing.Value =>
      { app.save_key_value with current_screen := CurrentScreen.Main }
    | none => app
  | KeyCode.Backspace =>
    match app.currently_editing with
    | some CurrentlyEditing.Key => { app with key_input := strPop app.key_input }
    | some CurrentlyEditing.Value => { app with value_input := strPop app.value_input }
    | none => app
  | KeyCode.Esc =>
    { app with current_screen := CurrentScreen.Main, currently_editing := none }
  | KeyCode.Tab => app.toggle_editing
  | KeyCode.Char c =>
    match app.currently_editing with
    | some CurrentlyEditing.Key => { app with key_input := app.key_input.push c }
    | some CurrentlyEditing.Value => { app with value_input := app.value_input.push c }
    | none => app
  | KeyCode.Other => app

/-- One iteration of the event loop of `run_app` (`main.rs` lines 66-156)
on a key event: `Release` events are skipped; otherwise the current screen
selects the match arm.  The `Editing` arm carries the extra guard
`key.kind == KeyEventKind::Press`; an `Editing` state with a non-`Press`
event falls to the final catch-all `_ => {}`. -/
def handleKey (app : App) (key : KeyEvent) : StepResult :=
  if key.kind = KeyEventKind.Release then
    StepResult.Continue app
  else
    match app.current_screen with
    | CurrentScreen.Main =>
      match key.code with
      | KeyCode.Char c =>
        if c = 'e' then
          StepResult.Continue
            { app with
              current_screen := CurrentScreen.Editing
              currently_editing := some CurrentlyEditing.Key }
        else if c = 'q' then
          StepResult.Continue { app with current_screen := CurrentScreen.Exiting }
        else
          StepResult.Continue app
      | _ => StepResult.Continue app
    | CurrentScreen.Exiting =>
      match key.code with
      | KeyCode.Char c =>
        if c = 'y' then
          StepResult.ExitWithOutput
        else if c = 'n' ∨ c = 'q' then
          StepResult.ExitWithoutOutput
        else
          StepResult.Continue app
      | _ => StepResult.Continue app
    | CurrentScreen.Editing =>
      if key.kind = KeyEventKind.Press then
        StepResult.Continue (editingKeyStep app key.code)
      else
        StepResult.Continue app

/-- Run the event loop over a list of key events, stopping at the first
exit signal. -/
def runEvents : App → List KeyEvent → StepResult
  | app, [] => StepResult.Continue app
  | app, e :: es =>
    match handleKey app e with
    | StepResult.Continue a2 => runEvents a2 es
    | StepResult.ExitWithOutput => StepResult.ExitWithOutput
    | StepResult.ExitWithoutOutput => StepResult.ExitWithoutOutput

/-- A key press event carrying a character. -/
def pressChar (c : Char) : KeyEvent :=
  { code := KeyCode.Char c, kind := KeyEventKind.Press }

/-- The states reachable from the initial state by the event loop. -/
inductive Reachable : App → Prop
  | init : Reachable App.init
  | step (a a2 : App) (e : KeyEvent) :
      Reachable a → handleKey a e = StepResult.Continue a2 → Reachable a2

/-- An `Enter` key press. -/
def enterPress : KeyEvent :=
  { code := KeyCode.Enter, kind := KeyEventKind.Press }

/-- An `Esc` key press. -/
def escPress : KeyEvent :=
  { code := KeyCode.Esc, kind := KeyEventKind.Press }

/-- A `Backspace` key press. -/
def backspacePress : KeyEvent :=
  { code := KeyCode.Backspace, kind := KeyEventKind.Press }

/-- A lowercase hexadecimal digit, used for JSON control-character escapes. -/
def hexDigitChar : Nat → Char
  | 0 => '0'
  | 1 => '1'
  | 2 => '2'
  | 3 => '3'
  | 4 => '4'
  | 5 => '5'
  | 6 => '6'
  | 7 => '7'
  | 8 => '8'
  | 9 => '9'
  | 10 => 'a'
  | 11 => 'b'
  | 12 => 'c'
  | 13 => 'd'
  | 14 => 'e'
  | _ => 'f'

/-- Standard JSON escaping of one character: quotes and backslashes are
backslash-escaped, the named control characters use their short escapes,
any other control character becomes a `\u00XX` escape, and everything else
is kept as is. -/
def escapeChar (c : Char) : List Char :=
  if c = '"' then ['\\', '"']
  else if c = '\\' then ['\\', '\\']
  else if c = Char.ofNat 8 then ['\\', 'b']
  else if c = Char.ofNat 9 then ['\\', 't']
  else if c = Char.ofNat 10 then ['\\', 'n']
  else if c = Char.ofNat 12 then ['\\', 'f']
  else if c = Char.ofNat 13 then ['\\', 'r']
  else if c.toNat < 32 then
    ['\\', 'u', '0', '0', hexDigitChar (c.toNat / 16), hexDigitChar (c.toNat % 16)]
  else [c]

/-- JSON escaping of a character list. -/
def escapeList : List Char → List Char
  | [] => []
  | c :: rest => escapeChar c ++ escapeList rest

/-- JSON escaping of a string. -/
def escapeString (s : String) : String :=
  String.mk (escapeList s.data)

/-- One serialized key-value entry of the JSON object. -/
def pairItem (p : String × String) : String :=
  "\"" ++ escapeString p.1 ++ "\":\"" ++ escapeString p.2 ++ "\""

/-- Modelled from the spec: `serialize()` (realized by `App::print_json` in
the missing `app` module) "produces a deterministic textual (JSON-object)
representation of Pair Store ... with keys in insertion order,
object-key/value as strings, standard escaping of control characters and
quotes.  Empty store serializes to \x7b\x7d". -/
def serialize (ps : List (String × String)) : String :=
  "\x7b" ++ String.intercalate "," (ps.map pairItem) ++ "\x7d"

/-- A reachable editing state: the initial state after pressing 'e'. -/
def edit0 : App :=
  { key_input := ""
    value_input := ""
    pairs := []
    current_screen := CurrentScreen.Editing
    currently_editing := some CurrentlyEditing.Key }

/-- An editing state focused on the key buffer, with buffers and store
populated. -/
def abEditApp : App :=
  { key_input := "ab"
    value_input := "cd"
    pairs := [("k", "v")]
    current_screen := CurrentScreen.Editing
    currently_editing := some CurrentlyEditing.Key }

/-- A Main-screen state whose key buffer still holds "ab", as left behind
by a cancelled edit. -/
def abMainApp : App :=
  { key_input := "ab"
    value_input := ""
    pairs := []
    current_screen := CurrentScreen.Main
    currently_editing := none }

/-- An Exiting-screen state. -/
def exitingApp : App :=
  { key_input := ""
    value_input := ""
    pairs := [("k", "v")]
    current_screen := CurrentScreen.Exiting
    currently_editing := none }

/-- The invariant of claim C3: a non-empty editing focus occurs only on the
Editing screen. -/
def focusInv (a : App) : Prop :=
  a.current_screen ≠ CurrentScreen.Editing → a.currently_editing = none

/-! ## Helper lemmas -/

theorem data_push (s : String) (c : Char) : (s.push c).data = s.data ++ [c] :=
  rfl

theorem handleKey_editing_press (app : App) (code : KeyCode)
    (hs : app.current_screen = CurrentScreen.Editing) :
    handleKey app { code := code, kind := KeyEventKind.Press } =
      StepResult.Continue (editingKeyStep app code) := by
  simp [handleKey, hs]

/-- While editing with the key buffer focused, one character press appends
the character to the key buffer and changes nothing else. -/
theorem editing_key_push (app : App) (c : Char)
    (hs : app.current_screen = CurrentScreen.Editing)
    (hf : app.currently_editing = some CurrentlyEditing.Key) :
    handleKey app (pressChar c) =
      StepResult.Continue { app with key_input := app.key_input.push c } := by
  simp [handleKey, pressChar, hs, hf, editingKeyStep]

/-- While editing with the key buffer focused, a sequence of character
presses appends exactly those characters, in order, to the key buffer. -/
theorem editing_key_append (cs : List Char) (app : App)
    (hs : app.current_screen = CurrentScreen.Editing)
    (hf : app.currently_editing = some CurrentlyEditing.Key) :
    runEvents app (cs.map pressChar) =
      StepResult.Continue
        { app with key_input := String.mk (app.key_input.data ++ cs) } := by
  induction cs generalizing app with
  | nil =>
    simp [runEvents]
  | cons c rest ih =>
    rw [List.map_cons]
    simp only [runEvents, editing_key_push app c hs hf]
    rw [ih { app with key_input := app.key_input.push c } hs hf]
    simp [data_push, List.append_assoc]

/-- Exit signals come only from the Exiting screen on one of the characters
'y', 'n', 'q'. -/
theorem exit_only_from_exiting (app : App) (k : KeyEvent)
    (h : handleKey app k = StepResult.ExitWithOutput ∨
         handleKey app k = StepResult.ExitWithoutOutput) :
    app.current_screen = CurrentScreen.Exiting ∧
      (k.code = KeyCode.Char 'y' ∨ k.code = KeyCode.Char 'n' ∨ k.code = KeyCode.Char 'q') := by
  obtain ⟨code, kind⟩ := k
  rcases h with h | h <;>
  · unfold handleKey at h
    dsimp only at h ⊢
    split at h
    · simp at h
    · split at h
      · split at h
        · split_ifs at h
        · simp at h
      · rename_i hsc
        refine ⟨hsc, ?_⟩
        split at h
        · rename_i k0 c
          split_ifs at h with h1 h2
          all_goals first
          | (simp [h1]; done)
          | (rcases h2 with h2 | h2 <;> simp [h2])
        · simp at h
      · split at h <;> simp at h

/-- One `Continue` step preserves the focus invariant. -/
theorem focusInv_step (a a2 : App) (e : KeyEvent) (ha : focusInv a)
    (h : handleKey a e = StepResult.Continue a2) : focusInv a2 := by
  obtain ⟨code, kind⟩ := e
  unfold handleKey at h
  split at h
  · simp only [StepResult.Continue.injEq] at h
    subst h
    exact ha
  · split at h
    · rename_i hsc
      split at h
      · rename_i k0 c
        split_ifs at h with h1 h2 <;>
          (simp only [StepResult.Continue.injEq] at h; subst h)
        · intro hne
          exact absurd rfl hne
        · intro _
          exact ha (by simp [hsc])
        · exact ha
      · simp only [StepResult.Continue.injEq] at h
        subst h
        exact ha
    · rename_i hsc
      split at h
      · rename_i k0 c
        split_ifs at h with h1 h2
        simp only [StepResult.Continue.injEq] at h
        subst h
        exact ha
      · simp only [StepResult.Continue.injEq] at h
        subst h
        exact ha
    · rename_i hsc
      split at h
      · simp only [StepResult.Continue.injEq] at h
        subst h
        unfold editingKeyStep
        split
        · split
          · intro hne
            exact absurd hsc hne
          · intro _
            rfl
          · intro hne
            exact absurd hsc hne
        · split <;> (intro hne; exact absurd hsc hne)
        · intro _
          rfl
        · unfold App.toggle_editing
          split <;> (intro hne; exact absurd hsc hne)
        · split <;> (intro hne; exact absurd hsc hne)
        · intro hne
          exact absurd hsc hne
      · simp only [StepResult.Continue.injEq] at h
        subst h
        exact ha

/-- Every reachable state satisfies the focus invariant. -/
theorem focusInv_reachable (a : App) (ha : Reachable a) : focusInv a := by
  induction ha with
  | init => intro _; rfl
  | step a a2 e _ hstep ih => exact focusInv_step a a2 e ih hstep

/-- A `Continue` step out of the Editing screen clears the editing focus. -/
theorem editing_departure (a a2 : App) (e : KeyEvent)
    (hsc : a.current_screen = CurrentScreen.Editing)
    (h : handleKey a e = StepResult.Continue a2)
    (hne : a2.current_screen ≠ CurrentScreen.Editing) :
    a2.currently_editing = none := by
  obtain ⟨code, kind⟩ := e
  unfold handleKey at h
  rw [hsc] at h
  dsimp only at h
  split at h
  · simp only [StepResult.Continue.injEq] at h
    subst h
    exact absurd hsc hne
  · split at h
    · simp only [StepResult.Continue.injEq] at h
      subst h
      revert hne
      unfold editingKeyStep
      split
      · split
        · intro hne
          exact absurd hsc hne
        · intro _
          rfl
        · intro hne
          exact absurd hsc hne
      · split <;> (intro hne; exact absurd hsc hne)
      · intro _
        rfl
      · unfold App.toggle_editing
        split <;> (intro hne; exact absurd hsc hne)
      · split <;> (intro hne; exact absurd hsc hne)
      · intro hne
        exact absurd hsc hne
    · simp only [StepResult.Continue.injEq] at h
      subst h
      exact absurd hsc hne

/-- `insertPair` changes the store size by at most one and never shrinks
it. -/
theorem insertPair_length (ps : List (String × String)) (k v : String) :
    ps.length ≤ (insertPair ps k v).length ∧
      (insertPair ps k v).length ≤ ps.length + 1 := by
  induction ps with
  | nil => simp [insertPair]
  | cons hd tl ih =>
    obtain ⟨k0, v0⟩ := hd
    simp only [insertPair]
    split_ifs with h
    · simp
    · simp only [List.length_cons]
      exact ⟨Nat.succ_le_succ ih.1, Nat.succ_le_succ ih.2⟩

/-- `insertPair` preserves first-insertion key order: overwriting keeps the
key where it was, a new key goes to the end. -/
theorem insertPair_keys (ps : List (String × String)) (k v : String) :
    (insertPair ps k v).map Prod.fst =
      if k ∈ ps.map Prod.fst then ps.map Prod.fst else ps.map Prod.fst ++ [k] := by
  induction ps with
  | nil => simp [insertPair]
  | cons hd tl ih =>
    obtain ⟨k0, v0⟩ := hd
    simp only [insertPair]
    by_cases h : k0 = k
    · subst h
      simp
    · rw [if_neg h, List.map_cons, List.map_cons, ih]
      by_cases hk : k ∈ tl.map Prod.fst
      · simp [hk]
      · simp [hk, Ne.symm h]

theorem hexDigitChar_ge (n : Nat) : 32 ≤ (hexDigitChar n).toNat := by
  unfold hexDigitChar
  split <;> decide

theorem escapeChar_ge (c c2 : Char) (h : c2 ∈ escapeChar c) : 32 ≤ c2.toNat := by
  unfold escapeChar at h
  split_ifs at h with h1 h2 h3 h4 h5 h6 h7 h8
  all_goals
    simp only [List.mem_cons, List.mem_singleton, List.not_mem_nil, or_false] at h
  all_goals first
  | (rcases h with h | h | h | h | h | h <;>
      first
      | (subst h; decide)
      | (subst h; exact hexDigitChar_ge _))
  | (rcases h with h | h <;> (subst h; decide))
  | (subst h; omega)

theorem escapeList_ge (l : List Char) (c2 : Char) (h : c2 ∈ escapeList l) :
    32 ≤ c2.toNat := by
  induction l with
  | nil => simp [escapeList] at h
  | cons c rest ih =>
    simp only [escapeList, List.mem_append] at h
    rcases h with h | h
    · exact escapeChar_ge c c2 h
    · exact ih h

/-! ## Claims -/

/-- Claim C1: in the Editing screen, Enter with focus on the key moves the
focus to the value with no other change; Enter with focus on the value
commits the pair (insert or overwrite store, clear both buffers, clear the
focus) and returns to the Main screen. -/
theorem C1_enter_editing (app : App) (hs : app.current_screen = CurrentScreen.Editing) :
    (app.currently_editing = some CurrentlyEditing.Key →
      handleKey app enterPress =
        StepResult.Continue { app with currently_editing := some CurrentlyEditing.Value }) ∧
    (app.currently_editing = some CurrentlyEditing.Value →
      handleKey app enterPress =
        StepResult.Continue
          { app with
            pairs := insertPair app.pairs app.key_input app.value_input
            key_input := ""
            value_input := ""
            currently_editing := none
            current_screen := CurrentScreen.Main }) := by
  refine ⟨fun hf => ?_, fun hf => ?_⟩ <;>
    simp [handleKey, enterPress, hs, hf, editingKeyStep, App.save_key_value]

/-- Witness for claim C1 at a concrete editing state. -/
theorem C1_enter_editing_witness :
    handleKey abEditApp enterPress =
      StepResult.Continue { abEditApp with currently_editing := some CurrentlyEditing.Value } :=
  (C1_enter_editing abEditApp rfl).1 rfl

/-- Claim C2: in the Exiting screen, 'y' exits with output, 'n' or 'q'
exits without output, anything else continues with the state unchanged;
and the exit signals arise only from the Exiting screen on one of these
three characters. -/
theorem C2_exiting_screen (app : App) (k : KeyEvent) :
    (app.current_screen = CurrentScreen.Exiting → k.kind = KeyEventKind.Press →
      ((k.code = KeyCode.Char 'y' → handleKey app k = StepResult.ExitWithOutput) ∧
        ((k.code = KeyCode.Char 'n' ∨ k.code = KeyCode.Char 'q') →
          handleKey app k = StepResult.ExitWithoutOutput) ∧
        (k.code ≠ KeyCode.Char 'y' → k.code ≠ KeyCode.Char 'n' → k.code ≠ KeyCode.Char 'q' →
          handleKey app k = StepResult.Continue app))) ∧
    ((handleKey app k = StepResult.ExitWithOutput ∨
        handleKey app k = StepResult.ExitWithoutOutput) →
      app.current_screen = CurrentScreen.Exiting ∧
        (k.code = KeyCode.Char 'y' ∨ k.code = KeyCode.Char 'n' ∨ k.code = KeyCode.Char 'q')) := by
  constructor
  · intro hs hk
    refine ⟨fun hy => ?_, fun hnq => ?_, fun h1 h2 h3 => ?_⟩
    · simp [handleKey, hs, hk, hy]
    · rcases hnq with hx | hx <;> simp [handleKey, hs, hk, hx]
    · cases hc : k.code
      case Char c =>
        have hy : ¬c = 'y' := by rintro rfl; exact h1 hc
        have hn : ¬c = 'n' := by rintro rfl; exact h2 hc
        have hq : ¬c = 'q' := by rintro rfl; exact h3 hc
        simp [handleKey, hs, hk, hc, hy, hn, hq]
      all_goals simp [handleKey, hs, hk, hc]
  · exact exit_only_from_exiting app k

/-- Witness for claim C2 at a concrete exiting state. -/
theorem C2_exiting_screen_witness :
    handleKey exitingApp (pressChar 'y') = StepResult.ExitWithOutput :=
  ((C2_exiting_screen exitingApp (pressChar 'y')).1 rfl rfl).1 rfl

/-- Claim C3: in every reachable state the editing focus is non-empty only
on the Editing screen, and every transition leaving the Editing screen
clears the focus. -/
theorem C3_focus_only_editing (a : App) (e : KeyEvent) (a2 : App) (ha : Reachable a) :
    (a.currently_editing ≠ none → a.current_screen = CurrentScreen.Editing) ∧
    (a.current_screen = CurrentScreen.Editing → handleKey a e = StepResult.Continue a2 →
      a2.current_screen ≠ CurrentScreen.Editing → a2.currently_editing = none) := by
  constructor
  · intro hne
    by_contra hsc
    exact hne (focusInv_reachable a ha hsc)
  · intro hsc h hne
    exact editing_departure a a2 e hsc h hne

/-- Witness for claim C3 along the reachable step from the initial state
into editing and back out via Esc. -/
theorem C3_focus_only_editing_witness : App.init.currently_editing = none :=
  (C3_focus_only_editing edit0 escPress App.init
      (Reachable.step App.init edit0 (pressChar 'e') Reachable.init (by decide))).2
    rfl (by decide) (by decide)

/-- Claim C4: Esc in the Editing screen returns to Main and clears the
focus, changing nothing else: both buffers and the store are retained. -/
theorem C4_esc_cancel (app : App) (hs : app.current_screen = CurrentScreen.Editing) :
    handleKey app escPress =
      StepResult.Continue
        { app with
          current_screen := CurrentScreen.Main
          currently_editing := none } := by
  simp [handleKey, escPress, hs, editingKeyStep]

/-- Witness for claim C4: a key buffer holding "ab" still holds "ab" after
Esc. -/
theorem C4_esc_cancel_witness :
    (handleKey abEditApp escPress =
      StepResult.Continue
        { abEditApp with
          current_screen := CurrentScreen.Main
          currently_editing := none }) ∧
    abEditApp.key_input = "ab" :=
  ⟨C4_esc_cancel abEditApp rfl, rfl⟩

/-- Claim C5: in the Main screen, 'e' starts editing with key focus, 'q'
moves to the Exiting screen, anything else leaves the state unchanged. -/
theorem C5_main_screen (app : App) (k : KeyEvent)
    (hs : app.current_screen = CurrentScreen.Main) (hk : k.kind = KeyEventKind.Press) :
    (k.code = KeyCode.Char 'e' →
      handleKey app k =
        StepResult.Continue
          { app with
            current_screen := CurrentScreen.Editing
            currently_editing := some CurrentlyEditing.Key }) ∧
    (k.code = KeyCode.Char 'q' →
      handleKey app k =
        StepResult.Continue { app with current_screen := CurrentScreen.Exiting }) ∧
    (k.code ≠ KeyCode.Char 'e' → k.code ≠ KeyCode.Char 'q' →
      handleKey app k = StepResult.Continue app) := by
  refine ⟨fun he => ?_, fun hq => ?_, fun h1 h2 => ?_⟩
  · simp [handleKey, hs, hk, he]
  · simp [handleKey, hs, hk, hq]
  · cases hc : k.code
    case Char c =>
      have he : ¬c = 'e' := by rintro rfl; exact h1 hc
      have hq : ¬c = 'q' := by rintro rfl; exact h2 hc
      simp [handleKey, hs, hk, hc, he, hq]
    all_goals simp [handleKey, hs, hk, hc]

/-- Witness for claim C5 at the initial state. -/
theorem C5_main_screen_witness :
    handleKey App.init (pressChar 'e') =
      StepResult.Continue
        { App.init with
          current_screen := CurrentScreen.Editing
          currently_editing := some CurrentlyEditing.Key } :=
  (C5_main_screen App.init (pressChar 'e') rfl rfl).1 rfl

/-- Claim C6: while editing with key focus, a sequence of character presses
appends exactly those characters in order (so from an empty buffer the
buffer equals their concatenation); Backspace removes exactly the trailing
character of the focused buffer, and is a no-op on an empty buffer. -/
theorem C6_key_buffer_concat (app : App) (cs : List Char)
    (hs : app.current_screen = CurrentScreen.Editing)
    (hf : app.currently_editing = some CurrentlyEditing.Key) :
    (runEvents app (cs.map pressChar) =
      StepResult.Continue
        { app with key_input := String.mk (app.key_input.data ++ cs) }) ∧
    (app.key_input = "" →
      runEvents app (cs.map pressChar) =
        StepResult.Continue { app with key_input := String.mk cs }) ∧
    (handleKey app backspacePress =
      StepResult.Continue
        { app with key_input := String.mk app.key_input.data.dropLast }) ∧
    (app.key_input = "" → handleKey app backspacePress = StepResult.Continue app) := by
  obtain ⟨ki, vi, ps, sc, ce⟩ := app
  dsimp only at hs hf
  subst hs
  subst hf
  refine ⟨editing_key_append cs _ rfl rfl, fun h0 => ?_, ?_, fun h0 => ?_⟩
  · dsimp only at h0
    subst h0
    rw [editing_key_append cs _ rfl rfl]
    rfl
  · rfl
  · dsimp only at h0
    subst h0
    rfl

/-- Witness for claim C6: typing "ab" into an empty key buffer. -/
theorem C6_key_buffer_concat_witness :
    runEvents edit0 (['a', 'b'].map pressChar) =
      StepResult.Continue { edit0 with key_input := String.mk ['a', 'b'] } :=
  (C6_key_buffer_concat edit0 ['a', 'b'] rfl rfl).2.1 rfl

/-- Claim C7: committing an existing key overwrites its value instead of
adding a duplicate (committing a=1 then a=2 leaves exactly one entry
a mapped to 2, checked both on `insertPair` and through the full event
loop), and each commit grows the store by at most one entry and never
shrinks it. -/
theorem C7_commit_overwrites :
    insertPair (insertPair [] "a" "1") "a" "2" = [("a", "2")] ∧
    runEvents App.init
        [pressChar 'e', pressChar 'a', enterPress, pressChar '1', enterPress,
          pressChar 'e', pressChar 'a', enterPress, pressChar '2', enterPress] =
      StepResult.Continue
        { key_input := ""
          value_input := ""
          pairs := [("a", "2")]
          current_screen := CurrentScreen.Main
          currently_editing := none } ∧
    (∀ ps k v, ps.length ≤ (insertPair ps k v).length ∧
      (insertPair ps k v).length ≤ ps.length + 1) :=
  ⟨by decide, by decide, insertPair_length⟩

/-- Claim C8: `serialize` renders the empty store as exactly the two
characters, keeps keys in first-insertion order (an overwrite keeps the
key's position, a new key is appended), escapes control characters away
(every character of an escaped string is non-control), and renders quotes
and control characters with standard JSON escapes. -/
theorem C8_serialize_shape :
    serialize [] = "\x7b\x7d" ∧
    (∀ ps k v, (insertPair ps k v).map Prod.fst =
      if k ∈ ps.map Prod.fst then ps.map Prod.fst else ps.map Prod.fst ++ [k]) ∧
    (∀ s c, c ∈ (escapeString s).data → 32 ≤ c.toNat) ∧
    serialize [("a\"b", "x\ny"), ("k2", "v2")] =
      "\x7b\"a\\\"b\":\"x\\ny\",\"k2\":\"v2\"\x7d" :=
  ⟨by decide, insertPair_keys, fun s c h => escapeList_ge s.data c h, by decide⟩

/-- Witness for claim C8: the escaped form of "ab" contains only
non-control characters, here checked on its first character. -/
theorem C8_serialize_shape_witness : 32 ≤ ('a' : Char).toNat :=
  C8_serialize_shape.2.2.1 "ab" 'a' (by decide)

/-- Claim C9 counterexample: after typing "ab" in the editing screen,
cancelling with Esc, and re-entering editing with 'e', the key buffer
still holds "ab" — re-entry does not reset buffer content left by a
cancel, contrary to the claim. -/
theorem C9_counterexample :
    runEvents App.init
        [pressChar 'e', pressChar 'a', pressChar 'b', escPress, pressChar 'e'] =
      StepResult.Continue
        { key_input := "ab"
          value_input := ""
          pairs := []
          current_screen := CurrentScreen.Editing
          currently_editing := some CurrentlyEditing.Key } ∧
    ("ab" : String) ≠ "" :=
  ⟨by decide, by decide⟩

/-- Claim C9 (amended): pressing 'e' in the Main screen has no
preconditions, sets Screen = Editing and focus = Key, and leaves the
buffers and the store untouched — content left by a prior cancel
persists. -/
theorem C9_begin_edit (app : App) (hs : app.current_screen = CurrentScreen.Main) :
    handleKey app (pressChar 'e') =
      StepResult.Continue
        { app with
          current_screen := CurrentScreen.Editing
          currently_editing := some CurrentlyEditing.Key } := by
  simp [handleKey, pressChar, hs]

/-- Witness for the amended claim C9: re-entering editing from a Main
state whose key buffer holds "ab" keeps the "ab". -/
theorem C9_begin_edit_witness :
    handleKey abMainApp (pressChar 'e') =
      StepResult.Continue
        { abMainApp with
          current_screen := CurrentScreen.Editing
          currently_editing := some CurrentlyEditing.Key } :=
  C9_begin_edit abMainApp rfl

/-- Claim C10: a Repeat-kind key event behaves exactly like a Press in the
Main and Exiting screens (for example Repeat 'q' in Main moves to Exiting
and Repeat 'y' in Exiting exits with output), but is ignored in the
Editing screen. -/
theorem C10_repeat_events (app : App) (code : KeyCode) :
    (app.current_screen = CurrentScreen.Main →
      handleKey app { code := code, kind := KeyEventKind.Repeat } =
        handleKey app { code := code, kind := KeyEventKind.Press }) ∧
    (app.current_screen = CurrentScreen.Exiting →
      handleKey app { code := code, kind := KeyEventKind.Repeat } =
        handleKey app { code := code, kind := KeyEventKind.Press }) ∧
    (app.current_screen = CurrentScreen.Editing →
      handleKey app { code := code, kind := KeyEventKind.Repeat } =
        StepResult.Continue app) ∧
    (app.current_screen = CurrentScreen.Main →
      handleKey app { code := KeyCode.Char 'q', kind := KeyEventKind.Repeat } =
        StepResult.Continue { app with current_screen := CurrentScreen.Exiting }) ∧
    (app.current_screen = CurrentScreen.Exiting →
      handleKey app { code := KeyCode.Char 'y', kind := KeyEventKind.Repeat } =
        StepResult.ExitWithOutput) := by
  refine ⟨fun hs => ?_, fun hs => ?_, fun hs => ?_, fun hs => ?_, fun hs => ?_⟩ <;>
    simp [handleKey, hs]

/-- Witness for claim C10: Repeat 'q' at the initial Main state moves to
Exiting. -/
theorem C10_repeat_events_witness :
    handleKey App.init { code := KeyCode.Char 'q', kind := KeyEventKind.Repeat } =
      StepResult.Continue { App.init with current_screen := CurrentScreen.Exiting } :=
  (C10_repeat_events App.init (KeyCode.Char 'q')).2.2.2.1 rfl

end Jute
